import Mathlib

/-!
# Verification of the auto-merge decision engine

Shallow embedding of `src/index.ts`: the review aggregator (`latestReviews`),
the check aggregator (`allChecksCompleted`, `checkConclusions`), the merge
policy evaluation and action step (`updatePullRequest`), and the delayed
retry (`runRetry`).  Platform reads (pull request, reviews, check runs) are
modelled as fields of a `Platform` record; the engine is a pure function of
the platform state, the pull-request snapshot it was invoked with, and the
configuration.
-/

namespace AutoMerge

/-- A pull-request review as fetched from the platform: author login,
verdict state (APPROVED, CHANGES_REQUESTED, ...) and submission time.
`submitted_at` is the numeric time value the code obtains via
`new Date(r.submitted_at).getTime()`. -/
structure Review where
  user : String
  state : String
  submitted_at : Nat
deriving DecidableEq, Repr

/-- A check run: name, status (queued | in_progress | completed) and
conclusion (meaningful once status is completed). -/
structure CheckRun where
  name : String
  status : String
  conclusion : String
deriving DecidableEq, Repr

/-- The pull-request snapshot consulted by the engine: identity fields
(`baseUserLogin` = base.user.login, `baseRepoName` = base.repo.name,
`number`), head commit sha, and the tri-state `mergeable` flag
(`none` models the platform's null / unknown). -/
structure PullRequest where
  number : Nat
  state : String
  merged : Bool
  mergeable : Option Bool
  baseRepoName : String
  baseUserLogin : String
  headSha : String
deriving DecidableEq, Repr

/-- Configuration thresholds: `minApprovals` embeds the `min-approvals` key
and `maxRequestedChanges` the `max-requested-changes` key. -/
structure Config where
  minApprovals : Nat
  maxRequestedChanges : Nat
deriving DecidableEq, Repr

/-- `defaultConfig` from the source: min-approvals 1, max-requested-changes 0. -/
def defaultConfig : Config := ⟨1, 0⟩

/-- The platform reads the engine performs, as pure functions of the
platform state at the moment of the call:
pull request by (owner, repo, number), reviews by (owner, repo, number),
check runs by (owner, repo, ref). -/
structure Platform where
  getPullRequest : String → String → Nat → PullRequest
  getReviews : String → String → Nat → List Review
  listChecksForRef : String → String → String → List CheckRun

/-- Outcome of one evaluation cycle, named by the spec's reasons. -/
inductive Decision where
  | merge
  | blocked (reason : String)
  | pending
deriving DecidableEq, Repr

/-- A scheduled re-evaluation: the code's `setTimeout` closure captures the
pull-request snapshot it was invoked with, plus the delay in milliseconds. -/
structure RetryTask where
  snapshot : PullRequest
  delayMs : Nat
deriving DecidableEq, Repr

/-- Observable effects of one evaluation cycle: the decision reached, how
many merge calls were issued, and which delayed re-evaluations were
scheduled. -/
structure StepResult where
  decision : Decision
  mergeCalls : Nat
  retries : List RetryTask
deriving DecidableEq, Repr

/-! ## Review aggregator -/

/-- Comparison used by `reviews.sort((a, b) => ta - tb)`: ascending
submission time. -/
def rle (a b : Review) : Prop := a.submitted_at ≤ b.submitted_at

instance : DecidableRel rle := fun a b => Nat.decLe a.submitted_at b.submitted_at

instance : IsTotal Review rle := ⟨fun a b => Nat.le_total a.submitted_at b.submitted_at⟩

instance : IsTrans Review rle := ⟨fun _ _ _ => Nat.le_trans⟩

/-- JS object update `{...m, [k]: v}`: an existing key keeps its position
and gets the new value, a new key is appended. -/
def upsert : List (String × String) → String → String → List (String × String)
  | [], k, v => [(k, v)]
  | p :: m, k, v => if p.1 == k then (k, v) :: m else p :: upsert m k v

/-- `latestReviews` from the source: sort reviews by submission time
ascending (JS `Array.prototype.sort` is stable, which insertion sort by a
total preorder realises), then fold into an object keyed by reviewer login,
later entries overwriting earlier ones. -/
def latestReviews (reviews : List Review) : List (String × String) :=
  (List.insertionSort rle reviews).foldl (fun m r => upsert m r.user r.state) []

/-- Property lookup on the modelled JS object. -/
def objGet (m : List (String × String)) (k : String) : Option String :=
  (m.find? (fun p => p.1 == k)).map Prod.snd

/-- `Object.values(latestReviews)`. -/
def reviewStates (reviews : List Review) : List String :=
  (latestReviews reviews).map Prod.snd

/-- `reviewStates.filter(s => s === 'CHANGES_REQUESTED').length`. -/
def changesRequestedCount (reviews : List Review) : Nat :=
  ((reviewStates reviews).filter (fun s => s == "CHANGES_REQUESTED")).length

/-- `reviewStates.filter(s => s === 'APPROVED').length`. -/
def approvalCount (reviews : List Review) : Nat :=
  ((reviewStates reviews).filter (fun s => s == "APPROVED")).length

/-! ## Check aggregator -/

/-- `checkRuns.every(c => c.status === 'completed')`. -/
def allChecksCompleted (checkRuns : List CheckRun) : Bool :=
  checkRuns.all (fun c => c.status == "completed")

/-- The conclusion presence map built by
`checkRuns.reduce((result, c) => ({...result, [c.conclusion]: true}), {})`,
modelled as its membership function. -/
def checkConclusions (checkRuns : List CheckRun) : String → Bool :=
  checkRuns.foldl (fun m c => fun k => if k == c.conclusion then true else m k)
    (fun _ => false)

/-- `conclusions.failure || conclusions.cancelled || conclusions.timed_out
|| conclusions.action_required`. -/
def checksBlocking (checkRuns : List CheckRun) : Bool :=
  checkConclusions checkRuns "failure" || checkConclusions checkRuns "cancelled" ||
    checkConclusions checkRuns "timed_out" || checkConclusions checkRuns "action_required"

/-! ## Merge decision engine -/

/-- One evaluation cycle of `updatePullRequest(context, pullRequest, config)`:
the rule cascade of the source, with each early `return` mapped to the
spec's decision name, the merge call counted on the merge path, and the
`setTimeout(() => updatePullRequest(context, pullRequest, config), 60000)`
on the pending path recorded as a scheduled `RetryTask` carrying the very
snapshot the cycle was invoked with. -/
def updatePullRequest (g : Platform) (pr : PullRequest) (config : Config) : StepResult :=
  let repo := pr.baseRepoName
  let owner := pr.baseUserLogin
  let number := pr.number
  if pr.state ≠ "open" then ⟨.blocked "not open", 0, []⟩
  else if pr.merged then ⟨.blocked "already merged", 0, []⟩
  else if pr.mergeable ≠ some true then ⟨.blocked "not mergeable", 0, []⟩
  else
    let reviews := g.getReviews owner repo number
    if changesRequestedCount reviews > config.minApprovals then
      ⟨.blocked "too many change requests", 0, []⟩
    else if approvalCount reviews < config.maxRequestedChanges then
      ⟨.blocked "not enough approvals", 0, []⟩
    else
      let checkRuns := g.listChecksForRef owner repo pr.headSha
      if ! allChecksCompleted checkRuns then ⟨.pending, 0, [⟨pr, 60000⟩]⟩
      else if checksBlocking checkRuns then ⟨.blocked "blocking check conclusion", 0, []⟩
      else ⟨.merge, 1, []⟩

/-- What the scheduled timer actually runs when it fires, per the source:
`updatePullRequest(context, pullRequest, config)` with the captured
(stale) snapshot, against the platform state `g` at firing time. -/
def runRetry (g : Platform) (t : RetryTask) (config : Config) : StepResult :=
  updatePullRequest g t.snapshot config

/-- The retry as the spec describes it: use only the captured snapshot's
identity (owner, repo, number) and refetch a fresh `PullRequest` from the
platform at retry time, then evaluate that fresh snapshot.  Stated from
the spec's words for comparison with `runRetry`. -/
def runRetrySpec (g : Platform) (t : RetryTask) (config : Config) : StepResult :=
  updatePullRequest g
    (g.getPullRequest t.snapshot.baseUserLogin t.snapshot.baseRepoName t.snapshot.number)
    config

/-! ## Sample data used by concrete witnesses -/

/-- An open, unmerged, mergeable pull request. -/
def samplePR : PullRequest := ⟨1, "open", false, some true, "repo", "owner", "sha"⟩

/-- A platform with no reviews and no check runs. -/
def samplePlatform : Platform :=
  ⟨fun _ _ _ => samplePR, fun _ _ _ => [], fun _ _ _ => []⟩

/-- The sample pull request with `state = "closed"`. -/
def closedSamplePR : PullRequest := ⟨1, "closed", false, some true, "repo", "owner", "sha"⟩

/-- The sample pull request with unknown mergeability. -/
def unknownMergeablePR : PullRequest := ⟨1, "open", false, none, "repo", "owner", "sha"⟩

/-- A platform whose only check run on the sample pull request completed
with conclusion failure. -/
def failedCheckPlatform : Platform :=
  ⟨fun _ _ _ => samplePR, fun _ _ _ => [], fun _ _ _ => [⟨"ci", "completed", "failure"⟩]⟩

/-- A platform whose only check run on the sample pull request is still in
progress. -/
def pendingCheckPlatform : Platform :=
  ⟨fun _ _ _ => samplePR, fun _ _ _ => [], fun _ _ _ => [⟨"ci", "in_progress", ""⟩]⟩

/-- A platform where two distinct reviewers both requested changes on the
sample pull request. -/
def rejectedPlatform : Platform :=
  ⟨fun _ _ _ => samplePR,
   fun _ _ _ => [⟨"alice", "CHANGES_REQUESTED", 1⟩, ⟨"bob", "CHANGES_REQUESTED", 2⟩],
   fun _ _ _ => []⟩

/-- An open, unmerged, mergeable snapshot captured at scheduling time. -/
def staleOpenPR : PullRequest := ⟨7, "open", false, some true, "r", "o", "s"⟩

/-- The same pull request as the platform reports it at retry time: closed. -/
def freshClosedPR : PullRequest := ⟨7, "closed", false, some true, "r", "o", "s"⟩

/-- Platform state at scheduling time: the only check is still in progress. -/
def schedulingPlatform : Platform :=
  ⟨fun _ _ _ => staleOpenPR, fun _ _ _ => [], fun _ _ _ => [⟨"ci", "in_progress", ""⟩]⟩

/-- Platform state when the timer fires: the pull request has been closed
meanwhile, and the check completed successfully. -/
def retryTimePlatform : Platform :=
  ⟨fun _ _ _ => freshClosedPR, fun _ _ _ => [], fun _ _ _ => [⟨"ci", "completed", "success"⟩]⟩

/-- Reference selection on a plain list: the review with the maximum
submission time, equal times resolved in favour of the later element. -/
def pickLatest : List Review → Option Review
  | [] => none
  | x :: l =>
    match pickLatest l with
    | none => some x
    | some b => if x.submitted_at ≤ b.submitted_at then some b else some x

/-! ## Helper lemmas: check aggregator -/

theorem checkConclusions_foldl (runs : List CheckRun) (m : String → Bool) (c : String) :
    runs.foldl (fun m cr => fun k => if k == cr.conclusion then true else m k) m c = true ↔
      c ∈ runs.map CheckRun.conclusion ∨ m c = true := by
  induction runs generalizing m with
  | nil => simp
  | cons r rs ih =>
    simp only [List.foldl_cons, ih, List.map_cons, List.mem_cons]
    by_cases h : c = r.conclusion <;> simp [h]

theorem checkConclusions_mem (runs : List CheckRun) (c : String) :
    checkConclusions runs c = true ↔ c ∈ runs.map CheckRun.conclusion := by
  rw [checkConclusions, checkConclusions_foldl]
  simp

theorem allChecksCompleted_iff (runs : List CheckRun) :
    allChecksCompleted runs = true ↔ ∀ r ∈ runs, r.status = "completed" := by
  simp [allChecksCompleted, List.all_eq_true]

/-- C4: the check aggregator: `allCompleted` holds iff every run has status
completed, the conclusion map contains exactly the conclusions of the runs,
and the empty list yields `allCompleted = true` with an empty conclusion
set. -/
theorem check_aggregator_spec (runs : List CheckRun) :
    (allChecksCompleted runs = true ↔ ∀ r ∈ runs, r.status = "completed")
    ∧ (∀ c, checkConclusions runs c = true ↔ c ∈ runs.map CheckRun.conclusion)
    ∧ allChecksCompleted [] = true
    ∧ ∀ c, checkConclusions [] c = false := by
  refine ⟨allChecksCompleted_iff runs, fun c => checkConclusions_mem runs c, rfl, fun c => rfl⟩

/-! ## Rule-cascade claims -/

/-- C6: a pull request whose state is not open is blocked with reason
"not open", with no merge call and no scheduled recheck, regardless of the
platform's reviews and checks and of the configuration. -/
theorem not_open_blocks (g : Platform) (pr : PullRequest) (config : Config)
    (h : pr.state ≠ "open") :
    updatePullRequest g pr config = ⟨.blocked "not open", 0, []⟩ := by
  simp [updatePullRequest, h]

/-- Witness for C6: the closed sample pull request is blocked as "not open". -/
theorem not_open_blocks_witness :
    updatePullRequest samplePlatform closedSamplePR defaultConfig
      = ⟨.blocked "not open", 0, []⟩ :=
  not_open_blocks samplePlatform closedSamplePR defaultConfig (by decide)

/-- C5: an open, unmerged pull request whose `mergeable` flag is not true
(false or unknown) is blocked with reason "not mergeable": no merge call,
regardless of review and check content. -/
theorem not_mergeable_blocks (g : Platform) (pr : PullRequest) (config : Config)
    (hs : pr.state = "open") (hm : pr.merged = false) (hq : pr.mergeable ≠ some true) :
    updatePullRequest g pr config = ⟨.blocked "not mergeable", 0, []⟩ := by
  simp [updatePullRequest, hs, hm, hq]

/-- Witness for C5: unknown mergeability (`none`) is blocked, never merged. -/
theorem not_mergeable_blocks_witness :
    updatePullRequest samplePlatform unknownMergeablePR defaultConfig
      = ⟨.blocked "not mergeable", 0, []⟩ :=
  not_mergeable_blocks samplePlatform unknownMergeablePR defaultConfig rfl rfl (by decide)

/-- C9: the evaluator is deterministic: identical platform state, snapshot
and configuration always yield identical step results. -/
theorem evaluator_deterministic (g₁ g₂ : Platform) (pr₁ pr₂ : PullRequest)
    (c₁ c₂ : Config) (hg : g₁ = g₂) (hp : pr₁ = pr₂) (hc : c₁ = c₂) :
    updatePullRequest g₁ pr₁ c₁ = updatePullRequest g₂ pr₂ c₂ := by
  subst hg; subst hp; subst hc; rfl

/-- Witness for C9: determinism at the sample input. -/
theorem evaluator_deterministic_witness :
    updatePullRequest samplePlatform samplePR defaultConfig
      = updatePullRequest samplePlatform samplePR defaultConfig :=
  evaluator_deterministic samplePlatform samplePlatform samplePR samplePR
    defaultConfig defaultConfig rfl rfl rfl

/-- For an open, unmerged, mergeable snapshot the cascade reduces to the
review-threshold and check rules. -/
theorem updatePullRequest_open_eq (g : Platform) (pr : PullRequest) (config : Config)
    (hs : pr.state = "open") (hm : pr.merged = false) (hq : pr.mergeable = some true) :
    updatePullRequest g pr config =
      (if changesRequestedCount (g.getReviews pr.baseUserLogin pr.baseRepoName pr.number)
          > config.minApprovals then ⟨.blocked "too many change requests", 0, []⟩
      else if approvalCount (g.getReviews pr.baseUserLogin pr.baseRepoName pr.number)
          < config.maxRequestedChanges then ⟨.blocked "not enough approvals", 0, []⟩
      else if ! allChecksCompleted (g.listChecksForRef pr.baseUserLogin pr.baseRepoName pr.headSha)
        then ⟨.pending, 0, [⟨pr, 60000⟩]⟩
      else if checksBlocking (g.listChecksForRef pr.baseUserLogin pr.baseRepoName pr.headSha)
        then ⟨.blocked "blocking check conclusion", 0, []⟩
      else ⟨.merge, 1, []⟩ : StepResult) := by
  simp [updatePullRequest, hs, hm, hq]

/-- C7: once all check runs are completed, a blocking conclusion (failure,
cancelled, timed_out or action_required) forces a BLOCKED decision — the
result is never a merge, whatever the reviews say. -/
theorem blocking_conclusion_blocks (g : Platform) (pr : PullRequest) (config : Config)
    (hc : ∀ r ∈ g.listChecksForRef pr.baseUserLogin pr.baseRepoName pr.headSha,
      r.status = "completed")
    (hb : ∃ r ∈ g.listChecksForRef pr.baseUserLogin pr.baseRepoName pr.headSha,
      r.conclusion = "failure" ∨ r.conclusion = "cancelled" ∨ r.conclusion = "timed_out"
        ∨ r.conclusion = "action_required") :
    ∃ reason, (updatePullRequest g pr config).decision = .blocked reason
      ∧ (updatePullRequest g pr config).mergeCalls = 0 := by
  have hall : allChecksCompleted
      (g.listChecksForRef pr.baseUserLogin pr.baseRepoName pr.headSha) = true :=
    (allChecksCompleted_iff _).mpr hc
  have hblock : checksBlocking
      (g.listChecksForRef pr.baseUserLogin pr.baseRepoName pr.headSha) = true := by
    obtain ⟨r, hr, hcase⟩ := hb
    have hmem : ∀ c, r.conclusion = c →
        checkConclusions (g.listChecksForRef pr.baseUserLogin pr.baseRepoName pr.headSha) c
          = true := by
      intro c hcc
      exact (checkConclusions_mem _ c).mpr (List.mem_map.mpr ⟨r, hr, hcc⟩)
    rcases hcase with h | h | h | h <;> simp [checksBlocking, hmem _ h]
  by_cases hs : pr.state = "open"
  · by_cases hm : pr.merged = true
    · exact ⟨"already merged", by simp [updatePullRequest, hs, hm], by simp [updatePullRequest, hs, hm]⟩
    · by_cases hq : pr.mergeable = some true
      · rw [updatePullRequest_open_eq g pr config hs (by simpa using hm) hq]
        split_ifs with h1 h2 h3
        · exact ⟨"too many change requests", rfl, rfl⟩
        · exact ⟨"not enough approvals", rfl, rfl⟩
        · rw [hall] at h3; exact absurd h3 (by decide)
        · exact ⟨"blocking check conclusion", rfl, rfl⟩
      · exact ⟨"not mergeable", by simp [updatePullRequest, hs, hm, hq],
          by simp [updatePullRequest, hs, hm, hq]⟩
  · exact ⟨"not open", by simp [updatePullRequest, hs], by simp [updatePullRequest, hs]⟩

/-- Witness for C7: a completed failing check blocks the sample pull request. -/
theorem blocking_conclusion_blocks_witness :
    ∃ reason, (updatePullRequest failedCheckPlatform samplePR defaultConfig).decision
        = Decision.blocked reason
      ∧ (updatePullRequest failedCheckPlatform samplePR defaultConfig).mergeCalls = 0 :=
  blocking_conclusion_blocks failedCheckPlatform samplePR defaultConfig
    (by intro r hr; simp [failedCheckPlatform] at hr; simp [hr])
    ⟨⟨"ci", "completed", "failure"⟩, by simp [failedCheckPlatform], Or.inl rfl⟩

/-- C8: with the pull request open, unmerged and mergeable, the review
rules passing and at least one check run not completed, the evaluation
returns PENDING: no merge call, and exactly one scheduled re-evaluation
with the fixed 60000 ms (60 s) delay. -/
theorem pending_check_schedules_one_retry (g : Platform) (pr : PullRequest) (config : Config)
    (hs : pr.state = "open") (hm : pr.merged = false) (hq : pr.mergeable = some true)
    (hr1 : ¬ changesRequestedCount (g.getReviews pr.baseUserLogin pr.baseRepoName pr.number)
        > config.minApprovals)
    (hr2 : ¬ approvalCount (g.getReviews pr.baseUserLogin pr.baseRepoName pr.number)
        < config.maxRequestedChanges)
    (hc : ∃ r ∈ g.listChecksForRef pr.baseUserLogin pr.baseRepoName pr.headSha,
      r.status ≠ "completed") :
    updatePullRequest g pr config = ⟨.pending, 0, [⟨pr, 60000⟩]⟩ := by
  have hnc : allChecksCompleted
      (g.listChecksForRef pr.baseUserLogin pr.baseRepoName pr.headSha) = false := by
    obtain ⟨r, hr, hne⟩ := hc
    refine List.all_eq_false.mpr ⟨r, hr, ?_⟩
    simpa using hne
  rw [updatePullRequest_open_eq g pr config hs hm hq, if_neg hr1, if_neg hr2, hnc]
  rfl

/-- Witness for C8: an in-progress check yields PENDING with one scheduled
60-second retry on the sample pull request. -/
theorem pending_check_schedules_one_retry_witness :
    updatePullRequest pendingCheckPlatform samplePR defaultConfig
      = ⟨.pending, 0, [⟨samplePR, 60000⟩]⟩ :=
  pending_check_schedules_one_retry pendingCheckPlatform samplePR defaultConfig
    rfl rfl rfl (by decide) (by decide)
    ⟨⟨"ci", "in_progress", ""⟩, by simp [pendingCheckPlatform], by decide⟩

/-- C10: under the default configuration the approval rule can never block
(`approvals < 0` is false for every review list), and an open, unmerged,
mergeable pull request with no reviews whose check runs are all completed
with conclusion success (in particular an empty check list) is merged. -/
theorem default_config_merges_unreviewed (g : Platform) (pr : PullRequest)
    (hs : pr.state = "open") (hm : pr.merged = false) (hq : pr.mergeable = some true)
    (hrev : g.getReviews pr.baseUserLogin pr.baseRepoName pr.number = [])
    (hch : ∀ r ∈ g.listChecksForRef pr.baseUserLogin pr.baseRepoName pr.headSha,
      r.status = "completed" ∧ r.conclusion = "success") :
    (∀ reviews : List Review, ¬ approvalCount reviews < defaultConfig.maxRequestedChanges)
    ∧ updatePullRequest g pr defaultConfig = ⟨.merge, 1, []⟩ := by
  refine ⟨fun reviews => Nat.not_lt_zero _, ?_⟩
  have hall : allChecksCompleted
      (g.listChecksForRef pr.baseUserLogin pr.baseRepoName pr.headSha) = true :=
    (allChecksCompleted_iff _).mpr fun r hr => (hch r hr).1
  have hnb : checksBlocking
      (g.listChecksForRef pr.baseUserLogin pr.baseRepoName pr.headSha) = false := by
    have honly : ∀ c, checkConclusions
        (g.listChecksForRef pr.baseUserLogin pr.baseRepoName pr.headSha) c = true →
        c = "success" := by
      intro c hc
      obtain ⟨r, hr, hcc⟩ := List.mem_map.mp ((checkConclusions_mem _ c).mp hc)
      rw [← hcc]; exact (hch r hr).2
    simp only [checksBlocking, Bool.or_eq_false_iff]
    refine ⟨⟨⟨?_, ?_⟩, ?_⟩, ?_⟩ <;>
      · rw [Bool.eq_false_iff]
        intro hcon
        exact absurd (honly _ hcon) (by decide)
  rw [updatePullRequest_open_eq g pr defaultConfig hs hm hq, hrev]
  simp [hall, hnb, changesRequestedCount, approvalCount, reviewStates, latestReviews,
    defaultConfig]

/-- Witness for C10: the sample platform (no reviews, no checks) merges the
sample pull request under the default configuration. -/
theorem default_config_merges_unreviewed_witness :
    (∀ reviews : List Review, ¬ approvalCount reviews < defaultConfig.maxRequestedChanges)
    ∧ updatePullRequest samplePlatform samplePR defaultConfig
        = ⟨.merge, 1, []⟩ :=
  default_config_merges_unreviewed samplePlatform samplePR rfl rfl rfl rfl
    (by intro r hr; simp [samplePlatform] at hr)

/-- C2: for an open, unmerged, mergeable pull request the evaluator blocks
with "too many change requests" iff the CHANGES_REQUESTED reviewer count
strictly exceeds min-approvals, and — once that rule passes — blocks with
"not enough approvals" iff the APPROVED reviewer count is strictly below
max-requested-changes: the thresholds are cross-wired exactly so. -/
theorem review_thresholds_cross_wired (g : Platform) (pr : PullRequest) (config : Config)
    (hs : pr.state = "open") (hm : pr.merged = false) (hq : pr.mergeable = some true) :
    ((updatePullRequest g pr config).decision = .blocked "too many change requests"
      ↔ changesRequestedCount (g.getReviews pr.baseUserLogin pr.baseRepoName pr.number)
          > config.minApprovals)
    ∧ (¬ changesRequestedCount (g.getReviews pr.baseUserLogin pr.baseRepoName pr.number)
          > config.minApprovals →
        ((updatePullRequest g pr config).decision = .blocked "not enough approvals"
          ↔ approvalCount (g.getReviews pr.baseUserLogin pr.baseRepoName pr.number)
              < config.maxRequestedChanges)) := by
  rw [updatePullRequest_open_eq g pr config hs hm hq]
  constructor
  · constructor
    · intro hdec
      by_contra hcount
      rw [if_neg hcount] at hdec
      split_ifs at hdec <;> simp_all
    · intro hcount
      rw [if_pos hcount]
  · intro hcount
    rw [if_neg hcount]
    constructor
    · intro hdec
      by_contra happ
      rw [if_neg happ] at hdec
      split_ifs at hdec
      simp_all
    · intro happ
      rw [if_pos happ]

/-- Witness for C2: two change requests against min-approvals 1 block the
sample pull request with "too many change requests". -/
theorem review_thresholds_cross_wired_witness :
    (updatePullRequest rejectedPlatform samplePR defaultConfig).decision
      = Decision.blocked "too many change requests" :=
  ((review_thresholds_cross_wired rejectedPlatform samplePR defaultConfig rfl rfl rfl).1).mpr
    (by decide)

/-! ## The delayed retry and the stale snapshot (C1) -/

/-- Counterexample to C1: the evaluation at scheduling time goes PENDING
and schedules a retry carrying the full stale snapshot; when the timer
fires against a platform where the pull request is meanwhile closed, the
code's retry (`runRetry`) consults the stale `state = "open"` and merges,
while the identity-refetch behaviour the claim describes (`runRetrySpec`)
sees the fresh `state = "closed"` and blocks — the two differ. -/
theorem retry_refetch_counterexample :
    updatePullRequest schedulingPlatform staleOpenPR defaultConfig
        = ⟨.pending, 0, [⟨staleOpenPR, 60000⟩]⟩
    ∧ runRetry retryTimePlatform ⟨staleOpenPR, 60000⟩ defaultConfig = ⟨.merge, 1, []⟩
    ∧ runRetrySpec retryTimePlatform ⟨staleOpenPR, 60000⟩ defaultConfig
        = ⟨.blocked "not open", 0, []⟩
    ∧ runRetry retryTimePlatform ⟨staleOpenPR, 60000⟩ defaultConfig
        ≠ runRetrySpec retryTimePlatform ⟨staleOpenPR, 60000⟩ defaultConfig := by
  refine ⟨by decide, by decide, by decide, by decide⟩

/-- C1 amended: the scheduled retry re-invokes the evaluation on the stale
snapshot it captured: its outcome depends on the platform's reviews and
check runs at retry time but never on the platform's fresh pull-request
read — the fields consulted by rules 1-3 are the stale snapshot's. -/
theorem retry_ignores_fresh_pull_request (g₁ g₂ : Platform) (t : RetryTask) (config : Config)
    (hrev : g₁.getReviews = g₂.getReviews)
    (hch : g₁.listChecksForRef = g₂.listChecksForRef) :
    runRetry g₁ t config = runRetry g₂ t config := by
  simp only [runRetry, updatePullRequest, hrev, hch]

/-- Witness for the amended C1: replacing the fresh pull-request fetcher of
the retry-time platform (closed pull request) by one returning the open
snapshot leaves the retry result unchanged. -/
theorem retry_ignores_fresh_pull_request_witness :
    runRetry retryTimePlatform ⟨staleOpenPR, 60000⟩ defaultConfig
      = runRetry
        ⟨fun _ _ _ => staleOpenPR, retryTimePlatform.getReviews,
          retryTimePlatform.listChecksForRef⟩
        ⟨staleOpenPR, 60000⟩ defaultConfig :=
  retry_ignores_fresh_pull_request retryTimePlatform
    ⟨fun _ _ _ => staleOpenPR, retryTimePlatform.getReviews,
      retryTimePlatform.listChecksForRef⟩
    ⟨staleOpenPR, 60000⟩ defaultConfig rfl rfl

/-! ## Review aggregator characterisation (C3) -/

theorem objGet_cons (q : String × String) (m : List (String × String)) (u : String) :
    objGet (q :: m) u = if q.1 = u then some q.2 else objGet m u := by
  by_cases h : q.1 = u
  · rw [objGet, List.find?_cons_of_pos m (by simp [h]), if_pos h]; rfl
  · rw [objGet, List.find?_cons_of_neg m (by simp [h]), if_neg h]; rfl

theorem objGet_upsert (m : List (String × String)) (k v u : String) :
    objGet (upsert m k v) u = if k = u then some v else objGet m u := by
  induction m with
  | nil => simp [upsert, objGet_cons]
  | cons p m ih =>
    by_cases hp : p.1 = k
    · rw [show upsert (p :: m) k v = (k, v) :: m by simp [upsert, hp], objGet_cons]
      by_cases h : k = u
      · simp [h]
      · rw [if_neg h, if_neg h, objGet_cons, if_neg (by rw [hp]; exact h)]
    · rw [show upsert (p :: m) k v = p :: upsert m k v by simp [upsert, hp],
        objGet_cons, ih, objGet_cons]
      by_cases h1 : p.1 = u <;> by_cases h2 : k = u <;> simp [h1, h2]
      exact absurd (h1.trans h2.symm) hp

theorem objGet_foldl_upsert (l : List Review) (m : List (String × String)) (u : String) :
    objGet (l.foldl (fun m r => upsert m r.user r.state) m) u =
      match (l.filter (fun r => r.user == u)).getLast? with
      | some b => some b.state
      | none => objGet m u := by
  induction l generalizing m with
  | nil => simp
  | cons r l ih =>
    rw [List.foldl_cons, ih]
    by_cases h : r.user = u
    · rw [List.filter_cons_of_pos (by simp [h])]
      cases hgl : (l.filter (fun r => r.user == u)).getLast? with
      | some b => simp [List.getLast?_cons, hgl]
      | none => simp [List.getLast?_cons, hgl, objGet_upsert, h]
    · rw [List.filter_cons_of_neg (by simp [h])]
      cases hgl : (l.filter (fun r => r.user == u)).getLast? with
      | some b => simp [hgl]
      | none => simp [hgl, objGet_upsert, h]

theorem orderedInsert_eq_cons (x : Review) (l : List Review) (h : ∀ z ∈ l, rle x z) :
    List.orderedInsert rle x l = x :: l := by
  cases l with
  | nil => rfl
  | cons z l => exact List.orderedInsert_of_le rle l (h z (List.mem_cons_self z l))

theorem filter_orderedInsert_pos (p : Review → Bool) (x : Review) (l : List Review)
    (hl : l.Sorted rle) (hx : p x = true) :
    (List.orderedInsert rle x l).filter p = List.orderedInsert rle x (l.filter p) := by
  induction l with
  | nil => simp [List.orderedInsert, hx]
  | cons y ys ih =>
    have hys : ys.Sorted rle := hl.of_cons
    have hyall : ∀ b ∈ ys, rle y b := List.rel_of_sorted_cons hl
    by_cases hxy : rle x y
    · rw [List.orderedInsert_of_le rle ys hxy, List.filter_cons_of_pos hx,
        orderedInsert_eq_cons x ((y :: ys).filter p)]
      intro z hz
      have hz' := List.mem_of_mem_filter hz
      rcases List.mem_cons.mp hz' with rfl | hz''
      · exact hxy
      · exact Nat.le_trans hxy (hyall z hz'')
    · rw [show List.orderedInsert rle x (y :: ys) = y :: List.orderedInsert rle x ys by
        simp [List.orderedInsert, hxy]]
      by_cases hy : p y
      · rw [List.filter_cons_of_pos hy, ih hys, List.filter_cons_of_pos hy,
          show List.orderedInsert rle x (y :: ys.filter p)
              = y :: List.orderedInsert rle x (ys.filter p) by
            simp [List.orderedInsert, hxy]]
      · rw [List.filter_cons_of_neg hy, ih hys, List.filter_cons_of_neg hy]

theorem filter_orderedInsert_neg (p : Review → Bool) (x : Review) (l : List Review)
    (hx : p x = false) :
    (List.orderedInsert rle x l).filter p = l.filter p := by
  induction l with
  | nil => simp [List.orderedInsert, hx]
  | cons y ys ih =>
    by_cases hxy : rle x y
    · rw [List.orderedInsert_of_le rle ys hxy, List.filter_cons_of_neg (by simp [hx])]
    · rw [show List.orderedInsert rle x (y :: ys) = y :: List.orderedInsert rle x ys by
        simp [List.orderedInsert, hxy]]
      by_cases hy : p y
      · rw [List.filter_cons_of_pos hy, List.filter_cons_of_pos hy, ih]
      · rw [List.filter_cons_of_neg hy, List.filter_cons_of_neg hy, ih]

theorem filter_insertionSort (p : Review → Bool) (l : List Review) :
    (List.insertionSort rle l).filter p = List.insertionSort rle (l.filter p) := by
  induction l with
  | nil => rfl
  | cons x l ih =>
    show (List.orderedInsert rle x (List.insertionSort rle l)).filter p = _
    by_cases hx : p x
    · rw [filter_orderedInsert_pos p x _ (List.sorted_insertionSort rle l) hx, ih,
        List.filter_cons_of_pos hx]
      rfl
    · rw [filter_orderedInsert_neg p x _ (by simpa using hx), ih,
        List.filter_cons_of_neg hx]

theorem getLast?_orderedInsert (x : Review) (s : List Review) (hs : s.Sorted rle) :
    (List.orderedInsert rle x s).getLast? =
      match s.getLast? with
      | none => some x
      | some b => if x.submitted_at ≤ b.submitted_at then some b else some x := by
  induction s with
  | nil => rfl
  | cons y ys ih =>
    have hys : ys.Sorted rle := hs.of_cons
    have hyall : ∀ b ∈ ys, rle y b := List.rel_of_sorted_cons hs
    by_cases hxy : rle x y
    · rw [List.orderedInsert_of_le rle ys hxy, List.getLast?_cons_cons]
      obtain ⟨b, hb⟩ : ∃ b, (y :: ys).getLast? = some b :=
        ⟨(y :: ys).getLast (by simp), List.getLast?_eq_getLast _ (by simp)⟩
      have hbmem : b ∈ y :: ys := List.mem_of_getLast?_eq_some hb
      have hxb : x.submitted_at ≤ b.submitted_at := by
        rcases List.mem_cons.mp hbmem with rfl | hbys
        · exact hxy
        · exact Nat.le_trans hxy (hyall b hbys)
      rw [hb]
      simp [hxb]
    · rw [show List.orderedInsert rle x (y :: ys) = y :: List.orderedInsert rle x ys by
        simp [List.orderedInsert, hxy]]
      cases ys with
      | nil =>
        have hxy' : ¬ x.submitted_at ≤ y.submitted_at := hxy
        simp [List.orderedInsert, hxy']
      | cons z zs =>
        rw [List.getLast?_cons, ih hys, List.getLast?_cons_cons]
        obtain ⟨b, hb⟩ : ∃ b, (z :: zs).getLast? = some b :=
          ⟨(z :: zs).getLast (by simp), List.getLast?_eq_getLast _ (by simp)⟩
        rw [hb]
        by_cases hxb : x.submitted_at ≤ b.submitted_at <;> simp [hxb]

theorem getLast?_insertionSort (l : List Review) :
    (List.insertionSort rle l).getLast? = pickLatest l := by
  induction l with
  | nil => rfl
  | cons x l ih =>
    show (List.orderedInsert rle x (List.insertionSort rle l)).getLast? = _
    rw [getLast?_orderedInsert x _ (List.sorted_insertionSort rle l), ih]
    rfl

theorem pickLatest_eq_none_iff (l : List Review) : pickLatest l = none ↔ l = [] := by
  cases l with
  | nil => simp [pickLatest]
  | cons x l =>
    simp only [pickLatest]
    cases h : pickLatest l with
    | none => simp
    | some b => by_cases ht : x.submitted_at ≤ b.submitted_at <;> simp [ht]

theorem pickLatest_spec (l : List Review) (b : Review) (h : pickLatest l = some b) :
    ∃ l₁ l₂, l = l₁ ++ b :: l₂ ∧ (∀ r ∈ l, r.submitted_at ≤ b.submitted_at)
      ∧ ∀ r ∈ l₂, r.submitted_at < b.submitted_at := by
  induction l generalizing b with
  | nil => cases h
  | cons x l ih =>
    cases hp : pickLatest l with
    | none =>
      have hl : l = [] := (pickLatest_eq_none_iff l).mp hp
      subst hl
      simp only [pickLatest] at h
      obtain rfl : x = b := by injection h
      exact ⟨[], [], rfl, by simp, by simp⟩
    | some c =>
      simp only [pickLatest, hp] at h
      by_cases ht : x.submitted_at ≤ c.submitted_at
      · rw [if_pos ht] at h
        obtain rfl : c = b := by injection h
        obtain ⟨l₁, l₂, rfl, hall, hstrict⟩ := ih c hp
        refine ⟨x :: l₁, l₂, rfl, ?_, hstrict⟩
        intro r hr
        rcases List.mem_cons.mp hr with rfl | hr'
        · exact ht
        · exact hall r hr'
      · rw [if_neg ht] at h
        obtain rfl : x = b := by injection h
        have hcx : c.submitted_at < x.submitted_at := Nat.lt_of_not_le ht
        obtain ⟨l₁, l₂, hdec, hall, _⟩ := ih c hp
        refine ⟨[], l, rfl, ?_, ?_⟩
        · intro r hr
          rcases List.mem_cons.mp hr with rfl | hr'
          · exact Nat.le_refl _
          · exact Nat.le_of_lt (Nat.lt_of_le_of_lt (hall r hr') hcx)
        · intro r hr
          exact Nat.lt_of_le_of_lt (hall r hr) hcx

theorem filter_eq_append_cons (p : Review → Bool) (l : List Review) (b : Review)
    (l₁ l₂ : List Review) (h : l.filter p = l₁ ++ b :: l₂) :
    ∃ m₁ m₂, l = m₁ ++ b :: m₂ ∧ m₂.filter p = l₂ := by
  induction l generalizing l₁ with
  | nil => rcases l₁ with _ | ⟨a, l₁⟩ <;> simp at h
  | cons x l ih =>
    by_cases hx : p x
    · rw [List.filter_cons_of_pos hx] at h
      cases l₁ with
      | nil =>
        simp only [List.nil_append] at h
        injection h with h1 h2
        exact ⟨[], l, by simp [h1], h2⟩
      | cons a l₁ =>
        rw [List.cons_append] at h
        injection h with h1 h2
        obtain ⟨m₁, m₂, rfl, hm⟩ := ih l₁ h2
        exact ⟨x :: m₁, m₂, rfl, hm⟩
    · rw [List.filter_cons_of_neg hx] at h
      obtain ⟨m₁, m₂, rfl, hm⟩ := ih l₁ h
      exact ⟨x :: m₁, m₂, rfl, hm⟩

theorem map_fst_upsert (m : List (String × String)) (k v : String) :
    (upsert m k v).map Prod.fst =
      if k ∈ m.map Prod.fst then m.map Prod.fst else m.map Prod.fst ++ [k] := by
  induction m with
  | nil => simp [upsert]
  | cons p m ih =>
    by_cases hp : p.1 = k
    · rw [show upsert (p :: m) k v = (k, v) :: m by simp [upsert, hp]]
      simp [hp.symm]
    · rw [show upsert (p :: m) k v = p :: upsert m k v by simp [upsert, hp]]
      simp only [List.map_cons, ih, List.mem_cons]
      by_cases hk : k ∈ m.map Prod.fst
      · simp [hk, Ne.symm hp]
      · simp [hk, Ne.symm hp]

theorem nodup_map_fst_upsert (m : List (String × String)) (k v : String)
    (h : (m.map Prod.fst).Nodup) : ((upsert m k v).map Prod.fst).Nodup := by
  rw [map_fst_upsert]
  split_ifs with hk
  · exact h
  · rw [List.nodup_append]
    refine ⟨h, by simp, ?_⟩
    intro a ha hb
    rw [List.mem_singleton] at hb
    exact hk (hb ▸ ha)

theorem nodup_keys_foldl_upsert (l : List Review) (m : List (String × String))
    (h : (m.map Prod.fst).Nodup) :
    ((l.foldl (fun m r => upsert m r.user r.state) m).map Prod.fst).Nodup := by
  induction l generalizing m with
  | nil => exact h
  | cons r l ih => exact ih _ (nodup_map_fst_upsert m r.user r.state h)

theorem mem_map_fst_foldl_upsert (l : List Review) (m : List (String × String)) (u : String) :
    u ∈ (l.foldl (fun m r => upsert m r.user r.state) m).map Prod.fst ↔
      u ∈ m.map Prod.fst ∨ u ∈ l.map Review.user := by
  induction l generalizing m with
  | nil => simp
  | cons r l ih =>
    rw [List.foldl_cons, ih, map_fst_upsert]
    by_cases hr : r.user ∈ m.map Prod.fst
    · rw [if_pos hr]
      simp only [List.map_cons, List.mem_cons]
      constructor
      · rintro (h | h)
        · exact Or.inl h
        · exact Or.inr (Or.inr h)
      · rintro (h | h | h)
        · exact Or.inl h
        · exact Or.inl (h ▸ hr)
        · exact Or.inr h
    · rw [if_neg hr]
      simp only [List.mem_append, List.map_cons, List.mem_cons, List.mem_singleton]
      tauto

theorem objGet_eq_none_iff (m : List (String × String)) (u : String) :
    objGet m u = none ↔ u ∉ m.map Prod.fst := by
  simp only [objGet, Option.map_eq_none', List.find?_eq_none, List.mem_map, beq_iff_eq,
    not_exists]
  constructor
  · intro h q
    intro hcon
    exact h q hcon.1 hcon.2
  · intro h q hq hqu
    exact h q ⟨hq, hqu⟩

/-- C3: the review aggregator produces exactly one entry per distinct
reviewer occurring in the input (no duplicate keys; a key iff that
reviewer submitted a review), the entry's state is the state of that
reviewer's review with maximum submission time — equal times resolved in
favour of the review occurring later in input order (no strictly later
review of the same reviewer reaches its time) — and the empty review list
yields the empty mapping. -/
theorem review_aggregator_spec (rs : List Review) (u : String) :
    ((latestReviews rs).map Prod.fst).Nodup
    ∧ (u ∈ (latestReviews rs).map Prod.fst ↔ u ∈ rs.map Review.user)
    ∧ (objGet (latestReviews rs) u = none ↔ u ∉ rs.map Review.user)
    ∧ (∀ s, objGet (latestReviews rs) u = some s →
        ∃ m₁ b m₂, rs = m₁ ++ b :: m₂ ∧ b.user = u ∧ b.state = s
          ∧ (∀ r ∈ rs, r.user = u → r.submitted_at ≤ b.submitted_at)
          ∧ (∀ r ∈ m₂, r.user = u → r.submitted_at < b.submitted_at))
    ∧ latestReviews [] = [] := by
  have hkeys : ∀ u' : String,
      u' ∈ (latestReviews rs).map Prod.fst ↔ u' ∈ rs.map Review.user := by
    intro u'
    rw [latestReviews, mem_map_fst_foldl_upsert]
    simp only [List.map_nil, List.not_mem_nil, false_or]
    exact ((List.perm_insertionSort rle rs).map Review.user).mem_iff
  have hchain : objGet (latestReviews rs) u
      = (pickLatest (rs.filter (fun r => r.user == u))).map Review.state := by
    rw [latestReviews, objGet_foldl_upsert, filter_insertionSort, getLast?_insertionSort]
    cases pickLatest (rs.filter (fun r => r.user == u)) <;> rfl
  refine ⟨?_, hkeys u, ?_, ?_, rfl⟩
  · rw [latestReviews]
    exact nodup_keys_foldl_upsert _ [] (by simp)
  · rw [objGet_eq_none_iff]
    exact not_congr (hkeys u)
  · intro s hs
    rw [hchain] at hs
    cases hpick : pickLatest (rs.filter (fun r => r.user == u)) with
    | none => rw [hpick] at hs; cases hs
    | some b =>
      rw [hpick] at hs
      obtain rfl : b.state = s := by injection hs
      obtain ⟨l₁, l₂, hfil, hall, hstrict⟩ := pickLatest_spec _ b hpick
      obtain ⟨m₁, m₂, rfl, hm₂⟩ := filter_eq_append_cons _ rs b l₁ l₂ hfil
      have hbu : b.user = u := by
        have hbf : b ∈ (m₁ ++ b :: m₂).filter (fun r => r.user == u) := by
          rw [hfil]; simp
        simpa using (List.mem_filter.mp hbf).2
      refine ⟨m₁, b, m₂, rfl, hbu, rfl, ?_, ?_⟩
      · intro r hr hru
        exact hall r (List.mem_filter.mpr ⟨hr, by simp [hru]⟩)
      · intro r hr hru
        refine hstrict r ?_
        rw [← hm₂]
        exact List.mem_filter.mpr ⟨hr, by simp [hru]⟩

end AutoMerge
